import Mathlib

/- Verification development for the StPetersburgToMoscow notebook: a maximum-flow
problem on a fixed directed network, formulated as a linear program.  The notebook
builds the LP data (objective, capacity rows, balance rows) as explicit matrices
and hands them to a minimizing simplex solver; here the matrices are transcribed
over the rationals and we reason about the feasible region, the optimum, the
structure of the balance system, and the decoding of the solution vector. -/

/-- Dot product of two rational vectors, truncating at the shorter list. -/
def dotQ (a b : List ℚ) : ℚ := (List.zipWith (fun x y => x * y) a b).sum

/-- Identity matrix, transcribing np.eye(n). -/
def eye (n : Nat) : List (List ℚ) :=
  (List.range n).map (fun i => (List.range n).map (fun j => if i = j then 1 else 0))

/-- Edge labels, transcribing labs. -/
def labs : List String :=
  ["e_sA", "e_sB", "e_AC", "e_AD", "e_BC", "e_BE", "e_CE", "e_CG", "e_DI",
   "e_EF", "e_EG", "e_FH", "e_GH", "e_Ht", "e_GI", "e_IJ", "e_Jt"]

/-- Objective vector, transcribing obj: -1 on the two edges into the target. -/
def obj : List ℚ := [0, 0, 0, 0, 0, 0, 0, 0, 0, 0, 0, 0, 0, -1, 0, 0, -1]

/-- Capacity constraint matrix, transcribing lhs_capacity = np.eye(17). -/
def lhs_capacity : List (List ℚ) := eye 17

/-- Capacity right-hand sides, transcribing rhs_capacity. -/
def rhs_capacity : List ℚ := [3, 3, 4, 2, 2, 2, 3, 4, 5, 3, 4, 4, 3, 5, 3, 3, 1]

/-- Balance constraint matrix, transcribing lhs_balance row by row
(rows in node order s, A, B, C, D, E, F, G, H, I, J, t). -/
def lhs_balance : List (List ℚ) :=
  [[1, 1, 0, 0, 0, 0, 0, 0, 0, 0, 0, 0, 0, -1, 0, 0, -1],
   [-1, 0, 1, 1, 0, 0, 0, 0, 0, 0, 0, 0, 0, 0, 0, 0, 0],
   [0, -1, 0, 0, 1, 1, 0, 0, 0, 0, 0, 0, 0, 0, 0, 0, 0],
   [0, 0, -1, 0, -1, 0, 1, 1, 0, 0, 0, 0, 0, 0, 0, 0, 0],
   [0, 0, 0, -1, 0, 0, 0, 0, 1, 0, 0, 0, 0, 0, 0, 0, 0],
   [0, 0, 0, 0, 0, -1, -1, 0, 0, 1, 1, 0, 0, 0, 0, 0, 0],
   [0, 0, 0, 0, 0, 0, 0, 0, 0, -1, 0, 1, 0, 0, 0, 0, 0],
   [0, 0, 0, 0, 0, 0, 0, -1, 0, 0, -1, 0, 1, 0, 1, 0, 0],
   [0, 0, 0, 0, 0, 0, 0, 0, 0, 0, 0, -1, -1, 1, 0, 0, 0],
   [0, 0, 0, 0, 0, 0, 0, 0, -1, 0, 0, 0, 0, 0, -1, 1, 0],
   [0, 0, 0, 0, 0, 0, 0, 0, 0, 0, 0, 0, 0, 0, 0, -1, 1],
   [0, 0, 0, 0, 0, 0, 0, 0, 0, 0, 0, 0, 0, 0, 0, 0, 0]]

/-- Balance right-hand sides, transcribing rhs_balance = np.zeros(12). -/
def rhs_balance : List ℚ := List.replicate 12 0

/-- The bound pairs constructed in the notebook, transcribing bnd: twelve
entries (one per node, by the comments), each (0, inf); the infinite upper
bound is modelled as Option.none.  This list is never passed to the solver. -/
def bnd : List (ℚ × Option ℚ) :=
  [(0, none), (0, none), (0, none), (0, none), (0, none), (0, none),
   (0, none), (0, none), (0, none), (0, none), (0, none), (0, none)]

/-- The solution vector reported by the solver (the x field of the output cell). -/
def xstar : List ℚ := [3, 3, 2, 1, 1, 2, 1, 2, 1, 3, 0, 3, 2, 5, 0, 1, 1]

/-- The optimal objective value reported by the solver (the fun field). -/
def optFun : ℚ := -6

/-- The maximum flow value: the negation of the minimized objective. -/
def maxFlowValue : ℚ := -optFun

/-- The 17 directed edges as (from, to) pairs, decoded from the edge labels and
the row comments of lhs_balance. -/
def edges : List (String × String) :=
  [("s", "A"), ("s", "B"), ("A", "C"), ("A", "D"), ("B", "C"), ("B", "E"),
   ("C", "E"), ("C", "G"), ("D", "I"), ("E", "F"), ("E", "G"), ("F", "H"),
   ("G", "H"), ("H", "t"), ("G", "I"), ("I", "J"), ("J", "t")]

/-- The 12 nodes, in the order of the balance rows and of the bnd comments. -/
def nodes : List String :=
  ["s", "A", "B", "C", "D", "E", "F", "G", "H", "I", "J", "t"]

/-- The nodes other than source and sink. -/
def internalNodes : List String := nodes.filter (fun n => n != "s" && n != "t")

/-- The data of one linear program, with the field names of the linprog call:
minimize dotQ c x subject to A_ub x <= b_ub, A_eq x = b_eq and the per-variable
bound pairs. -/
structure LPProblem where
  c : List ℚ
  A_ub : List (List ℚ)
  b_ub : List ℚ
  A_eq : List (List ℚ)
  b_eq : List ℚ
  bounds : List (ℚ × Option ℚ)

/-- The bounds argument of the linprog call in the notebook: absent. -/
def linprogBoundsArg : Option (List (ℚ × Option ℚ)) := none

/-- Modelled from the spec: the solver applies the default bound pair
(0, None), that is [0, +infinity), to every one of the n variables whenever no
bounds argument is passed, as the linprog call of the notebook does; the
missing upper bound is modelled as Option.none. -/
def effectiveBounds (n : Nat) : List (ℚ × Option ℚ) :=
  match linprogBoundsArg with
  | none => List.replicate n (0, none)
  | some bs => bs

/-- An optional upper bound is satisfied; Option.none means unbounded above. -/
def upperOk : Option ℚ → ℚ → Prop
  | none, _ => True
  | some u, v => v ≤ u

/-- A value lies within a bound pair. -/
def inBound (b : ℚ × Option ℚ) (v : ℚ) : Prop := b.1 ≤ v ∧ upperOk b.2 v

/-- A vector is feasible for a linear program: right length, within the bounds,
and satisfying every inequality row and every equality row. -/
def FeasibleLP (p : LPProblem) (x : List ℚ) : Prop :=
  x.length = p.c.length
    ∧ List.Forall₂ inBound p.bounds x
    ∧ List.Forall₂ (fun a b => a ≤ b) (p.A_ub.map (fun r => dotQ r x)) p.b_ub
    ∧ p.A_eq.map (fun r => dotQ r x) = p.b_eq

/-- The linear program actually handed to the solver by the notebook. -/
def stLP : LPProblem :=
  ⟨obj, lhs_capacity, rhs_capacity, lhs_balance, rhs_balance, effectiveBounds 17⟩

/-- Feasibility for the hardcoded instance. -/
def Feasible (x : List ℚ) : Prop := FeasibleLP stLP x

/-- Total flow on the edges entering a node. -/
def inflow (n : String) (x : List ℚ) : ℚ :=
  dotQ (edges.map (fun e => if e.2 = n then 1 else 0)) x

/-- Total flow on the edges leaving a node. -/
def outflow (n : String) (x : List ℚ) : ℚ :=
  dotQ (edges.map (fun e => if e.1 = n then 1 else 0)) x

/-- Decode step, transcribing optimal_flow = np.column_stack([labs, x]): the
solution components are paired with the edge labels in the canonical order. -/
def optimal_flow (x : List ℚ) : List (String × ℚ) := labs.zip x

/-- The identity matrix of the capacity block, evaluated. -/
lemma lhs_capacity_eval : lhs_capacity =
    [[1, 0, 0, 0, 0, 0, 0, 0, 0, 0, 0, 0, 0, 0, 0, 0, 0],
     [0, 1, 0, 0, 0, 0, 0, 0, 0, 0, 0, 0, 0, 0, 0, 0, 0],
     [0, 0, 1, 0, 0, 0, 0, 0, 0, 0, 0, 0, 0, 0, 0, 0, 0],
     [0, 0, 0, 1, 0, 0, 0, 0, 0, 0, 0, 0, 0, 0, 0, 0, 0],
     [0, 0, 0, 0, 1, 0, 0, 0, 0, 0, 0, 0, 0, 0, 0, 0, 0],
     [0, 0, 0, 0, 0, 1, 0, 0, 0, 0, 0, 0, 0, 0, 0, 0, 0],
     [0, 0, 0, 0, 0, 0, 1, 0, 0, 0, 0, 0, 0, 0, 0, 0, 0],
     [0, 0, 0, 0, 0, 0, 0, 1, 0, 0, 0, 0, 0, 0, 0, 0, 0],
     [0, 0, 0, 0, 0, 0, 0, 0, 1, 0, 0, 0, 0, 0, 0, 0, 0],
     [0, 0, 0, 0, 0, 0, 0, 0, 0, 1, 0, 0, 0, 0, 0, 0, 0],
     [0, 0, 0, 0, 0, 0, 0, 0, 0, 0, 1, 0, 0, 0, 0, 0, 0],
     [0, 0, 0, 0, 0, 0, 0, 0, 0, 0, 0, 1, 0, 0, 0, 0, 0],
     [0, 0, 0, 0, 0, 0, 0, 0, 0, 0, 0, 0, 1, 0, 0, 0, 0],
     [0, 0, 0, 0, 0, 0, 0, 0, 0, 0, 0, 0, 0, 1, 0, 0, 0],
     [0, 0, 0, 0, 0, 0, 0, 0, 0, 0, 0, 0, 0, 0, 1, 0, 0],
     [0, 0, 0, 0, 0, 0, 0, 0, 0, 0, 0, 0, 0, 0, 0, 1, 0],
     [0, 0, 0, 0, 0, 0, 0, 0, 0, 0, 0, 0, 0, 0, 0, 0, 1]] := rfl

/-- The solution vector reported by the solver is feasible for the LP. -/
lemma xstar_feasible : Feasible xstar := by
  refine ⟨rfl, ?_, ?_, ?_⟩
  · simp [stLP, effectiveBounds, linprogBoundsArg, xstar, inBound, upperOk,
      List.replicate, List.forall₂_cons]
  · rw [show stLP.A_ub = lhs_capacity from rfl, lhs_capacity_eval]
    simp [stLP, xstar, rhs_capacity, dotQ, List.forall₂_cons]
    norm_num
  · rw [show stLP.A_eq = lhs_balance from rfl]
    simp [lhs_balance, stLP, xstar, rhs_balance, dotQ, List.replicate]
    norm_num

/-- A rational list of length 17 is a 17-tuple. -/
lemma exists_eq_17 (x : List ℚ) (h : x.length = 17) :
    ∃ a0 a1 a2 a3 a4 a5 a6 a7 a8 a9 a10 a11 a12 a13 a14 a15 a16 : ℚ,
      x = [a0, a1, a2, a3, a4, a5, a6, a7, a8, a9, a10, a11, a12, a13, a14,
           a15, a16] := by
  rcases x with _ | ⟨a0, x⟩; · simp at h
  rcases x with _ | ⟨a1, x⟩; · simp at h
  rcases x with _ | ⟨a2, x⟩; · simp at h
  rcases x with _ | ⟨a3, x⟩; · simp at h
  rcases x with _ | ⟨a4, x⟩; · simp at h
  rcases x with _ | ⟨a5, x⟩; · simp at h
  rcases x with _ | ⟨a6, x⟩; · simp at h
  rcases x with _ | ⟨a7, x⟩; · simp at h
  rcases x with _ | ⟨a8, x⟩; · simp at h
  rcases x with _ | ⟨a9, x⟩; · simp at h
  rcases x with _ | ⟨a10, x⟩; · simp at h
  rcases x with _ | ⟨a11, x⟩; · simp at h
  rcases x with _ | ⟨a12, x⟩; · simp at h
  rcases x with _ | ⟨a13, x⟩; · simp at h
  rcases x with _ | ⟨a14, x⟩; · simp at h
  rcases x with _ | ⟨a15, x⟩; · simp at h
  rcases x with _ | ⟨a16, x⟩; · simp at h
  have hnil : x = [] := by
    simp only [List.length_cons] at h
    exact List.length_eq_zero.mp (by omega)
  subst hnil
  exact ⟨a0, a1, a2, a3, a4, a5, a6, a7, a8, a9, a10, a11, a12, a13, a14, a15,
    a16, rfl⟩

/-- Explicit form of feasibility for the hardcoded LP: component bounds,
capacity inequalities and balance equations. -/
lemma feasible_explicit (a0 a1 a2 a3 a4 a5 a6 a7 a8 a9 a10 a11 a12 a13 a14
    a15 a16 : ℚ)
    (hx : Feasible [a0, a1, a2, a3, a4, a5, a6, a7, a8, a9, a10, a11, a12,
      a13, a14, a15, a16]) :
    (0 ≤ a0 ∧ 0 ≤ a1 ∧ 0 ≤ a2 ∧ 0 ≤ a3 ∧ 0 ≤ a4 ∧ 0 ≤ a5 ∧ 0 ≤ a6 ∧ 0 ≤ a7
      ∧ 0 ≤ a8 ∧ 0 ≤ a9 ∧ 0 ≤ a10 ∧ 0 ≤ a11 ∧ 0 ≤ a12 ∧ 0 ≤ a13 ∧ 0 ≤ a14
      ∧ 0 ≤ a15 ∧ 0 ≤ a16)
    ∧ (a0 ≤ 3 ∧ a1 ≤ 3 ∧ a2 ≤ 4 ∧ a3 ≤ 2 ∧ a4 ≤ 2 ∧ a5 ≤ 2 ∧ a6 ≤ 3
      ∧ a7 ≤ 4 ∧ a8 ≤ 5 ∧ a9 ≤ 3 ∧ a10 ≤ 4 ∧ a11 ≤ 4 ∧ a12 ≤ 3 ∧ a13 ≤ 5
      ∧ a14 ≤ 3 ∧ a15 ≤ 3 ∧ a16 ≤ 1)
    ∧ (a0 + a1 - a13 - a16 = 0
      ∧ -a0 + a2 + a3 = 0
      ∧ -a1 + a4 + a5 = 0
      ∧ -a2 - a4 + a6 + a7 = 0
      ∧ -a3 + a8 = 0
      ∧ -a5 - a6 + a9 + a10 = 0
      ∧ -a9 + a11 = 0
      ∧ -a7 - a10 + a12 + a14 = 0
      ∧ -a11 - a12 + a13 = 0
      ∧ -a8 - a14 + a15 = 0
      ∧ -a15 + a16 = 0) := by
  obtain ⟨hlen, hbnd, hcap, heq⟩ := hx
  refine ⟨?_, ?_, ?_⟩
  · simp [stLP, effectiveBounds, linprogBoundsArg, inBound, upperOk,
      List.replicate, List.forall₂_cons] at hbnd
    exact hbnd
  · rw [show stLP.A_ub = lhs_capacity from rfl, lhs_capacity_eval] at hcap
    simp [stLP, rhs_capacity, dotQ, List.forall₂_cons] at hcap
    exact hcap
  · rw [show stLP.A_eq = lhs_balance from rfl] at heq
    simp [lhs_balance, stLP, rhs_balance, dotQ, List.replicate] at heq
    obtain ⟨e1, e2, e3, e4, e5, e6, e7, e8, e9, e10, e11⟩ := heq
    exact ⟨by linarith, by linarith, by linarith, by linarith, by linarith,
      by linarith, by linarith, by linarith, by linarith, by linarith,
      by linarith⟩

/-- The uniform incidence row used by the code for a node: +1 on every edge
leaving it and -1 on every edge entering it. -/
def incRow (n : String) : List ℚ :=
  edges.map (fun e => (if e.1 = n then (1 : ℚ) else 0)
    + (if e.2 = n then (-1 : ℚ) else 0))

/-- The extra terms carried by the source balance row: -1 on each edge whose
destination is the sink. -/
def sinkExtra : List ℚ := edges.map (fun e => if e.2 = "t" then (-1 : ℚ) else 0)

/-- Claim C4: the reported maximum flow value equals the sum of the flows on
the edges entering the sink (components 13 and 16 of the returned vector,
edges e_Ht and e_Jt) and also the sum of the flows on the edges leaving the
source (components 0 and 1, edges e_sA and e_sB). -/
theorem flow_value_sums :
    maxFlowValue = xstar.getD 13 0 + xstar.getD 16 0
      ∧ maxFlowValue = xstar.getD 0 0 + xstar.getD 1 0 := by
  rw [show xstar.getD 13 0 = 5 from rfl, show xstar.getD 16 0 = 1 from rfl,
    show xstar.getD 0 0 = 3 from rfl, show xstar.getD 1 0 = 3 from rfl]
  norm_num [maxFlowValue, optFun]

/-- Claim C6: in the LP actually handed to the solver, every one of the 17
edge variables carries the default bound pair [0, +infinity), since the call
passes no bounds argument. -/
theorem bounds_default :
    stLP.bounds.length = 17
      ∧ stLP.bounds = List.replicate 17 ((0 : ℚ), (none : Option ℚ)) :=
  ⟨rfl, rfl⟩

/-- Claim C7: the objective vector has entry -1 exactly on the edges whose
destination is the sink, and those are exactly the columns 13 and 16 (the
edges e_Ht and e_Jt). -/
theorem objective_rule :
    obj = edges.map (fun e => if e.2 = "t" then (-1 : ℚ) else 0)
      ∧ (∀ i : Fin 17, obj.getD i 0 = -1 ↔ ((i : ℕ) = 13 ∨ (i : ℕ) = 16))
      ∧ (∀ i : Fin 17, (edges.getD i ("", "")).2 = "t"
          ↔ ((i : ℕ) = 13 ∨ (i : ℕ) = 16)) := by
  refine ⟨rfl, ?_, ?_⟩ <;> decide

/-- Claim C3 (counterexample): the equality system does not have one row per
node excluding the sink (it has 12 rows, one per node, not 11); it contains an
all-zero row (the sink row, index 11); and its row for node A does not follow
the claimed rule of +1 on incoming and -1 on outgoing edges (the code uses
the opposite signs). -/
theorem balance_rows_counterexample :
    ¬(lhs_balance.length = nodes.length - 1)
      ∧ lhs_balance.getD 11 [] = List.replicate 17 (0 : ℚ)
      ∧ ¬(lhs_balance.getD 1 [] =
          edges.map (fun e => (if e.2 = "A" then (1 : ℚ) else 0)
            + (if e.1 = "A" then (-1 : ℚ) else 0))) := by
  refine ⟨by decide, rfl, ?_⟩
  intro h
  have h0 : (lhs_balance.getD 1 []).getD 0 0 =
      (edges.map (fun e => (if e.2 = "A" then (1 : ℚ) else 0)
        + (if e.1 = "A" then (-1 : ℚ) else 0))).getD 0 0 := by rw [h]
  rw [show (lhs_balance.getD 1 []).getD 0 0 = -1 from rfl] at h0
  simp [edges] at h0
  norm_num at h0

/-- Claim C3 (amended): the equality system has one row per node INCLUDING the
sink, in node order; each internal node row is the incidence row with +1 on
outgoing and -1 on incoming edges; the source row is that incidence row plus
an extra -1 on each sink-incoming edge; the sink row is identically zero (so
the system is rank-deficient); every right-hand side is 0. -/
theorem balance_rows_structure :
    lhs_balance.length = nodes.length
      ∧ rhs_balance = List.replicate nodes.length 0
      ∧ (∀ k : Fin 10,
          lhs_balance.getD ((k : ℕ) + 1) [] = incRow (internalNodes.getD k ("")))
      ∧ lhs_balance.getD 0 [] =
          List.zipWith (fun a b => a + b) (incRow ("s")) sinkExtra
      ∧ lhs_balance.getD 11 [] = List.replicate 17 0 := by
  refine ⟨rfl, rfl, ?_, ?_, rfl⟩
  · intro k
    fin_cases k <;> simp [incRow, edges, internalNodes, nodes, lhs_balance]
  · simp [incRow, sinkExtra, edges, lhs_balance]

/-- A tiny positive tolerance. -/
def epsTiny : ℚ := 1 / 1000000

/-- A solution vector whose first component is a tiny negative number, as
numerical noise could produce. -/
def xNeg : List ℚ :=
  [-(1 / 2000000), 0, 0, 0, 0, 0, 0, 0, 0, 0, 0, 0, 0, 0, 0, 0, 0]

/-- Claim C5 (counterexample): the decode step does not clip tiny negative
components to zero; a component lying strictly inside (-eps, 0) is presented
unchanged, so a presented flow value can be negative. -/
theorem decode_clipping_counterexample :
    (-epsTiny < xNeg.getD 0 0 ∧ xNeg.getD 0 0 < 0)
      ∧ (optimal_flow xNeg).getD 0 ("", 0) = ("e_sA", -(1 / 2000000))
      ∧ ((optimal_flow xNeg).getD 0 ("", 0)).2 < 0 := by
  refine ⟨⟨?_, ?_⟩, rfl, ?_⟩
  · rw [show xNeg.getD 0 0 = -(1 / 2000000) from rfl]
    norm_num [epsTiny]
  · rw [show xNeg.getD 0 0 = -(1 / 2000000) from rfl]
    norm_num
  · rw [show ((optimal_flow xNeg).getD 0 ("", 0)).2 = -(1 / 2000000) from rfl]
    norm_num

/-- Claim C5 (amended): the decode step pairs each edge label with the
corresponding raw solution component in the canonical order, with no clipping
of any kind; a tiny negative component would be presented as it is. -/
theorem decode_raw_pairing (x : List ℚ) (hx : x.length = 17) (i : ℕ)
    (hi : i < 17) :
    (optimal_flow x).getD i ("", 0) = (labs.getD i (""), x.getD i 0) := by
  obtain ⟨a0, a1, a2, a3, a4, a5, a6, a7, a8, a9, a10, a11, a12, a13, a14, a15,
    a16, rfl⟩ := exists_eq_17 x hx
  interval_cases i <;> rfl

/-- Witness for claim C5 (amended): the pairing applied to the reported vector
at the index of edge e_Ht. -/
theorem decode_raw_pairing_witness :
    (optimal_flow xstar).getD 13 ("", 0) = (labs.getD 13 (""), xstar.getD 13 0) :=
  decode_raw_pairing xstar rfl 13 (by norm_num)

/-- Claim C10: every vector of length 17 satisfying the hardcoded balance
system has total flow leaving the source equal to total flow entering the
sink: the component sum at indices 0 and 1 equals the component sum at
indices 13 and 16. -/
theorem balance_implies_value_eq (x : List ℚ) (hlen : x.length = 17)
    (hbal : lhs_balance.map (fun r => dotQ r x) = rhs_balance) :
    x.getD 0 0 + x.getD 1 0 = x.getD 13 0 + x.getD 16 0 := by
  obtain ⟨a0, a1, a2, a3, a4, a5, a6, a7, a8, a9, a10, a11, a12, a13, a14, a15,
    a16, rfl⟩ := exists_eq_17 x hlen
  simp [lhs_balance, rhs_balance, dotQ, List.replicate] at hbal
  obtain ⟨e1, e2, e3, e4, e5, e6, e7, e8, e9, e10, e11⟩ := hbal
  show a0 + a1 = a13 + a16
  linarith

/-- Witness for claim C10: the reported vector satisfies the balance system,
and the two sums agree on it. -/
theorem balance_implies_value_eq_witness :
    xstar.getD 0 0 + xstar.getD 1 0 = xstar.getD 13 0 + xstar.getD 16 0 :=
  balance_implies_value_eq xstar rfl (by
    rw [show lhs_balance.map (fun r => dotQ r xstar) =
        stLP.A_eq.map (fun r => dotQ r xstar) from rfl]
    exact xstar_feasible.2.2.2)

/-- Claim C1: the minimum of the objective over the feasible region of the
constructed LP is the reported optimal value -6, and the reported maximum flow
value, its negation, is 6. -/
theorem maxflow_lp_optimum :
    IsLeast {v : ℚ | ∃ x, Feasible x ∧ v = dotQ stLP.c x} optFun
      ∧ maxFlowValue = 6 := by
  refine ⟨⟨⟨xstar, xstar_feasible, ?_⟩, ?_⟩, by norm_num [maxFlowValue, optFun]⟩
  · show optFun = dotQ obj xstar
    norm_num [optFun, obj, xstar, dotQ]
  · rintro v ⟨x, hx, rfl⟩
    have hlen : x.length = 17 := hx.1
    obtain ⟨a0, a1, a2, a3, a4, a5, a6, a7, a8, a9, a10, a11, a12, a13, a14,
      a15, a16, rfl⟩ := exists_eq_17 x hlen
    obtain ⟨hb, hc, he⟩ := feasible_explicit a0 a1 a2 a3 a4 a5 a6 a7 a8 a9 a10
      a11 a12 a13 a14 a15 a16 hx
    show optFun ≤ dotQ obj [a0, a1, a2, a3, a4, a5, a6, a7, a8, a9, a10, a11,
      a12, a13, a14, a15, a16]
    simp [optFun, obj, dotQ]
    linarith [hc.1, hc.2.1, he.1]

/-- An edge of a general capacitated directed graph: a label, the two
endpoints, and a rational capacity.  (A non-finite capacity has no
representation in the exact rational model, so the non-finiteness check of
the spec is vacuously satisfied and validation checks non-negativity.) -/
structure Edge where
  label : String
  src : String
  dst : String
  capacity : ℚ

/-- A general directed capacitated graph. -/
structure Graph where
  nodes : List String
  edges : List Edge

/-- Modelled from the spec: the LP constructed by build from an arbitrary
graph.  The notebook hardcodes only the 17-edge instance, so the general
construction follows the construction rules of the spec: objective -1 on the
sink-incoming edges; one capacity row per edge (an identity matrix against
the capacity vector); one balance row per node excluding the sink, built by
the uniform incidence rule, with right-hand side 0; and the default bound
pair [0, +infinity) on every edge variable. -/
def lpOf (g : Graph) (_source sink : String) : LPProblem :=
  { c := g.edges.map (fun e => if e.dst = sink then (-1 : ℚ) else 0)
    A_ub := eye g.edges.length
    b_ub := g.edges.map (fun e => e.capacity)
    A_eq := (g.nodes.filter (fun n => n != sink)).map
      (fun n => g.edges.map (fun e => (if e.dst = n then (1 : ℚ) else 0)
        + (if e.src = n then (-1 : ℚ) else 0)))
    b_eq := List.replicate (g.nodes.filter (fun n => n != sink)).length 0
    bounds := List.replicate g.edges.length (0, none) }

/-- Modelled from the spec: build validates the graph and either reports a
construction error (source or sink absent from the node set, or a negative
capacity) without producing any LPProblem, or returns the fully constructed
LPProblem. -/
def build (g : Graph) (source sink : String) : Except String LPProblem :=
  if source ∈ g.nodes then
    if sink ∈ g.nodes then
      if ∀ e ∈ g.edges, 0 ≤ e.capacity then
        Except.ok (lpOf g source sink)
      else Except.error ("negative capacity")
    else Except.error ("sink not in node set")
  else Except.error ("source not in node set")

/-- A fully populated LPProblem for a graph: every block has the size the
construction rules prescribe and every bound pair is [0, +infinity). -/
def populated (g : Graph) (sink : String) (p : LPProblem) : Prop :=
  p.c.length = g.edges.length
    ∧ p.A_ub.length = g.edges.length
    ∧ (∀ r ∈ p.A_ub, r.length = g.edges.length)
    ∧ p.b_ub.length = g.edges.length
    ∧ p.A_eq.length = (g.nodes.filter (fun n => n != sink)).length
    ∧ (∀ r ∈ p.A_eq, r.length = g.edges.length)
    ∧ p.b_eq.length = (g.nodes.filter (fun n => n != sink)).length
    ∧ p.bounds.length = g.edges.length
    ∧ ∀ b ∈ p.bounds, b = ((0 : ℚ), (none : Option ℚ))

/-- The constructed LP is always fully populated. -/
lemma lpOf_populated (g : Graph) (source sink : String) :
    populated g sink (lpOf g source sink) := by
  refine ⟨by simp [lpOf], by simp [lpOf, eye], ?_, by simp [lpOf],
    by simp [lpOf], ?_, by simp [lpOf], by simp [lpOf], ?_⟩
  · intro r hr
    simp only [lpOf, eye, List.mem_map, List.mem_range] at hr
    obtain ⟨i, hi, rfl⟩ := hr
    simp
  · intro r hr
    simp only [lpOf, List.mem_map] at hr
    obtain ⟨n, hn, rfl⟩ := hr
    simp
  · intro b hb
    simp only [lpOf, List.mem_replicate] at hb
    exact hb.2

/-- Claim C8: build reports a construction error exactly for the malformed
inputs (source or sink absent from the node set, or some negative capacity),
and whenever it returns an LPProblem that problem is fully populated. -/
theorem build_validation (g : Graph) (source sink : String) :
    ((∃ msg, build g source sink = Except.error msg)
      ↔ (source ∉ g.nodes ∨ sink ∉ g.nodes ∨ ∃ e ∈ g.edges, e.capacity < 0))
    ∧ (∀ p, build g source sink = Except.ok p → populated g sink p) := by
  unfold build
  split_ifs with h1 h2 h3
  · constructor
    · constructor
      · rintro ⟨msg, hmsg⟩
        simp at hmsg
      · rintro (hb | hb | ⟨e, he, hcap⟩)
        exacts [absurd h1 hb, absurd h2 hb, absurd (h3 e he) (not_le.mpr hcap)]
    · rintro p hp
      injection hp with hp
      rw [← hp]
      exact lpOf_populated g source sink
  · constructor
    · refine ⟨fun _ => ?_, fun _ => ⟨_, rfl⟩⟩
      push_neg at h3
      obtain ⟨e, he, hcap⟩ := h3
      exact Or.inr (Or.inr ⟨e, he, hcap⟩)
    · rintro p hp
      simp at hp
  · constructor
    · exact ⟨fun _ => Or.inr (Or.inl h2), fun _ => ⟨_, rfl⟩⟩
    · rintro p hp
      simp at hp
  · constructor
    · exact ⟨fun _ => Or.inl h1, fun _ => ⟨_, rfl⟩⟩
    · rintro p hp
      simp at hp

/-- A graph missing the sink from its node set. -/
def gBad : Graph := ⟨["s"], []⟩

/-- A well-formed single-edge graph of capacity 5. -/
def gGood : Graph := ⟨["s", "t"], [⟨"e_st", "s", "t", 5⟩]⟩

/-- Witness for claim C8: the malformed graph produces a construction error,
and the well-formed graph produces a fully populated problem. -/
theorem build_validation_witness :
    (∃ msg, build gBad ("s") ("t") = Except.error msg)
      ∧ ∀ p, build gGood ("s") ("t") = Except.ok p → populated gGood ("t") p :=
  ⟨(build_validation gBad ("s") ("t")).1.mpr (Or.inr (Or.inl (by decide))),
    (build_validation gGood ("s") ("t")).2⟩

/-- The negated objective value of a solution: the flow value it carries. -/
def flowValue (p : LPProblem) (x : List ℚ) : ℚ := -(dotQ p.c x)

/-- The set of flow values achieved by the feasible points of the LP built
from a graph. -/
def achievable (g : Graph) (source sink : String) : Set ℚ :=
  {v | ∃ x, FeasibleLP (lpOf g source sink) x
    ∧ v = flowValue (lpOf g source sink) x}

/-- Replacing an entry of a list by itself changes nothing. -/
lemma set_get_self {α : Type} (l : List α) (i : ℕ) (h : i < l.length) :
    l.set i (l.get ⟨i, h⟩) = l := by
  apply List.ext_getElem (by simp)
  intro n h1 h2
  rw [List.getElem_set]
  split_ifs with hin
  · subst hin
    simp [List.get_eq_getElem]
  · rfl

/-- Mapping over a list with one entry replaced gives the same result when the
function does not distinguish the new entry from the old one. -/
lemma map_set_eq {α β : Type} (l : List α) (i : ℕ) (h : i < l.length) (a : α)
    (f : α → β) (hf : f a = f (l.get ⟨i, h⟩)) :
    (l.set i a).map f = l.map f := by
  rw [List.map_set, hf]
  have hg : f (l.get ⟨i, h⟩) = (l.map f).get ⟨i, by simp [h]⟩ := by
    simp [List.get_eq_getElem]
  rw [hg, set_get_self]

/-- Pointwise order on lists is transitive. -/
lemma forall₂_le_trans {u v w : List ℚ}
    (h1 : List.Forall₂ (fun a b => a ≤ b) u v)
    (h2 : List.Forall₂ (fun a b => a ≤ b) v w) :
    List.Forall₂ (fun a b => a ≤ b) u w := by
  induction h1 generalizing w with
  | nil => cases h2; exact List.Forall₂.nil
  | cons hab _ ih =>
    cases h2 with
    | cons hbc h2t => exact List.Forall₂.cons (le_trans hab hbc) (ih h2t)

/-- Raising one entry of a list gives a pointwise larger list. -/
lemma forall₂_le_set (l : List ℚ) (i : ℕ) (h : i < l.length) (v : ℚ)
    (hv : l.get ⟨i, h⟩ ≤ v) :
    List.Forall₂ (fun a b => a ≤ b) l (l.set i v) := by
  induction l generalizing i with
  | nil => simp at h
  | cons a t ih =>
    cases i with
    | zero =>
      refine List.Forall₂.cons hv ?_
      exact List.forall₂_same.mpr (fun x _ => le_refl x)
    | succ n =>
      exact List.Forall₂.cons (le_refl a) (ih n (by simpa using h) hv)

/-- Increasing the capacity of one edge (keeping its endpoints) preserves
feasibility of every solution vector. -/
lemma feasible_of_capacity_increase (g : Graph) (source sink : String)
    (i : ℕ) (hi : i < g.edges.length) (e' : Edge)
    (hsrc : e'.src = (g.edges.get ⟨i, hi⟩).src)
    (hdst : e'.dst = (g.edges.get ⟨i, hi⟩).dst)
    (hcap : (g.edges.get ⟨i, hi⟩).capacity ≤ e'.capacity)
    (x : List ℚ) (hx : FeasibleLP (lpOf g source sink) x) :
    FeasibleLP (lpOf ⟨g.nodes, g.edges.set i e'⟩ source sink) x := by
  obtain ⟨hlen, hbnd, hub, heq⟩ := hx
  have hc : (g.edges.set i e').map (fun e => if e.dst = sink then (-1 : ℚ) else 0)
      = g.edges.map (fun e => if e.dst = sink then (-1 : ℚ) else 0) :=
    map_set_eq _ i hi _ _ (by rw [hdst])
  refine ⟨?_, ?_, ?_, ?_⟩
  · simp only [lpOf, List.length_map] at hlen ⊢
    rw [List.length_set]
    exact hlen
  · simp only [lpOf] at hbnd ⊢
    rw [List.length_set]
    exact hbnd
  · simp only [lpOf] at hub ⊢
    rw [List.length_set, List.map_set]
    refine forall₂_le_trans hub ?_
    refine forall₂_le_set _ i (by simp [hi]) _ ?_
    have hgm : (g.edges.map (fun e => e.capacity)).get ⟨i, by simp [hi]⟩
        = (g.edges.get ⟨i, hi⟩).capacity := by
      simp [List.get_eq_getElem]
    rw [hgm]
    exact hcap
  · simp only [lpOf] at heq ⊢
    have hrows : ((g.nodes.filter (fun n => n != sink)).map
        (fun n => (g.edges.set i e').map
          (fun e => (if e.dst = n then (1 : ℚ) else 0)
            + (if e.src = n then (-1 : ℚ) else 0))))
        = ((g.nodes.filter (fun n => n != sink)).map
          (fun n => g.edges.map
            (fun e => (if e.dst = n then (1 : ℚ) else 0)
              + (if e.src = n then (-1 : ℚ) else 0)))) := by
      apply List.map_congr_left
      intro n _
      exact map_set_eq _ i hi _ _ (by rw [hdst, hsrc])
    rw [hrows]
    exact heq

/-- The objective of the constructed LP ignores a capacity change. -/
lemma lpOf_c_set (g : Graph) (source sink : String) (i : ℕ)
    (hi : i < g.edges.length) (e' : Edge)
    (hdst : e'.dst = (g.edges.get ⟨i, hi⟩).dst) :
    (lpOf ⟨g.nodes, g.edges.set i e'⟩ source sink).c = (lpOf g source sink).c := by
  simp only [lpOf]
  exact map_set_eq _ i hi _ _ (by rw [hdst])

/-- Claim C9: increasing the capacity of a single edge (all other data
unchanged) cannot decrease the optimal flow value of the built LP; applied
with the two graphs exchanged it equally shows that decreasing a capacity
cannot increase the optimal value. -/
theorem capacity_monotone (g g' : Graph) (source sink : String) (i : ℕ)
    (hi : i < g.edges.length) (e' : Edge)
    (hg' : g' = ⟨g.nodes, g.edges.set i e'⟩)
    (hsrc : e'.src = (g.edges.get ⟨i, hi⟩).src)
    (hdst : e'.dst = (g.edges.get ⟨i, hi⟩).dst)
    (hcap : (g.edges.get ⟨i, hi⟩).capacity ≤ e'.capacity)
    (w v : ℚ)
    (hw : IsGreatest (achievable g source sink) w)
    (hv : IsGreatest (achievable g' source sink) v) :
    w ≤ v := by
  subst hg'
  apply hv.2
  obtain ⟨x, hx, rfl⟩ := hw.1
  refine ⟨x, feasible_of_capacity_increase g source sink i hi e' hsrc hdst hcap
    x hx, ?_⟩
  simp only [flowValue]
  rw [lpOf_c_set g source sink i hi e' hdst]

/-- A single-edge graph from source to sink with the given capacity. -/
def singleEdgeGraph (c : ℚ) : Graph := ⟨["s", "t"], [⟨"e_st", "s", "t", c⟩]⟩

/-- Under the construction rules of the spec the balance row of the source
forces zero flow on a single-edge graph, so the greatest achievable value
is 0 whatever the capacity. -/
lemma singleEdge_isGreatest (c : ℚ) (hc : 0 ≤ c) :
    IsGreatest (achievable (singleEdgeGraph c) ("s") ("t")) 0 := by
  constructor
  · refine ⟨[0], ⟨rfl, ?_, ?_, ?_⟩, ?_⟩
    · simp [lpOf, singleEdgeGraph, inBound, upperOk, List.forall₂_cons,
        List.replicate]
    · simp [lpOf, singleEdgeGraph, eye, dotQ, List.forall₂_cons,
        List.range_succ, hc]
    · simp [lpOf, singleEdgeGraph, dotQ, List.replicate]
    · simp [flowValue, lpOf, singleEdgeGraph, dotQ]
  · rintro b ⟨x, ⟨hlen, hbnd, hub, heq⟩, rfl⟩
    rcases x with _ | ⟨a, x⟩
    · simp [lpOf, singleEdgeGraph] at hlen
    rcases x with _ | ⟨a2, x⟩
    swap
    · simp [lpOf, singleEdgeGraph] at hlen
    simp [lpOf, singleEdgeGraph, dotQ, List.replicate] at heq
    simp [flowValue, lpOf, singleEdgeGraph, dotQ]
    linarith

/-- Witness for claim C9: raising the capacity of the single edge of a
single-edge graph from 1 to 2 relates the two optima. -/
theorem capacity_monotone_witness :
    IsGreatest (achievable (singleEdgeGraph 1) ("s") ("t")) 0
      ∧ IsGreatest (achievable (singleEdgeGraph 2) ("s") ("t")) 0
      ∧ (0 : ℚ) ≤ 0 :=
  ⟨singleEdge_isGreatest 1 (by norm_num), singleEdge_isGreatest 2 (by norm_num),
    capacity_monotone (singleEdgeGraph 1) (singleEdgeGraph 2) ("s") ("t") 0
      (by norm_num [singleEdgeGraph]) ⟨"e_st", "s", "t", 2⟩ rfl rfl rfl
      (by norm_num [singleEdgeGraph]) 0 0
      (singleEdge_isGreatest 1 (by norm_num))
      (singleEdge_isGreatest 2 (by norm_num))⟩

/-- Unfolding of the dot product on cons cells. -/
lemma dotQ_cons (c a : ℚ) (cs t : List ℚ) :
    dotQ (c :: cs) (a :: t) = c * a + dotQ cs t := by
  simp [dotQ]

/-- A dot product against an all-zero vector vanishes. -/
lemma dotQ_zero_left (l t : List ℚ) (hl : ∀ a ∈ l, a = 0) : dotQ l t = 0 := by
  induction l generalizing t with
  | nil => rfl
  | cons a l ih =>
    cases t with
    | nil => rfl
    | cons b ts =>
      rw [dotQ_cons, hl a (List.mem_cons_self a l),
        ih ts (fun v hv => hl v (List.mem_cons_of_mem _ hv))]
      ring

/-- A dot product against the i-th unit row extracts the i-th component. -/
lemma dot_unit (x : List ℚ) (i : ℕ) (h : i < x.length) :
    dotQ ((List.range x.length).map (fun j => if i = j then (1 : ℚ) else 0)) x
      = x.getD i 0 := by
  induction x generalizing i with
  | nil => simp at h
  | cons a t ih =>
    rw [show List.range (a :: t).length
        = 0 :: (List.range t.length).map Nat.succ
        from List.range_succ_eq_map t.length,
      List.map_cons, List.map_map]
    cases i with
    | zero =>
      rw [dotQ_cons]
      have hz : dotQ (List.map ((fun j => if 0 = j then (1 : ℚ) else 0)
          ∘ Nat.succ) (List.range t.length)) t = 0 := by
        apply dotQ_zero_left
        intro b hb
        simp only [List.mem_map, Function.comp] at hb
        obtain ⟨j, _, rfl⟩ := hb
        simp
      rw [hz]
      simp
    | succ k =>
      rw [dotQ_cons]
      have hrow : List.map ((fun j => if k + 1 = j then (1 : ℚ) else 0)
          ∘ Nat.succ) (List.range t.length)
          = List.map (fun j => if k = j then (1 : ℚ) else 0)
            (List.range t.length) := by
        apply List.map_congr_left
        intro j _
        simp [Function.comp]
      rw [hrow, ih k (by simp only [List.length_cons] at h; omega)]
      simp

/-- The identity block of the LP evaluates, row against solution, to the
solution itself. -/
lemma eye_dot (x : List ℚ) :
    (eye x.length).map (fun r => dotQ r x) = x := by
  apply List.ext_getElem
  · simp [eye]
  · intro i h1 h2
    simp only [eye, List.getElem_map, List.getElem_range]
    rw [dot_unit x i h2]
    simp [List.getD_eq_getElem?_getD, List.getElem?_eq_getElem h2]

/-- Under the default bound pairs every component is non-negative. -/
lemma nonneg_of_bounds (n : ℕ) (x : List ℚ)
    (h : List.Forall₂ inBound (List.replicate n ((0 : ℚ), (none : Option ℚ))) x) :
    ∀ v ∈ x, 0 ≤ v := by
  induction n generalizing x with
  | zero =>
    cases h
    intro v hv
    simp at hv
  | succ m ih =>
    rw [List.replicate_succ] at h
    cases h with
    | cons hb ht =>
      intro v hv
      rcases List.mem_cons.mp hv with rfl | hv2
      · exact hb.1
      · exact ih _ ht v hv2

/-- Pairing the per-edge upper bounds with non-negativity. -/
lemma forall₂_and_nonneg {x : List ℚ} {es : List Edge}
    (h1 : List.Forall₂ (fun v e => v ≤ e.capacity) x es) :
    (∀ v ∈ x, 0 ≤ v) →
      List.Forall₂ (fun v e => 0 ≤ v ∧ v ≤ e.capacity) x es := by
  induction h1 with
  | nil => exact fun _ => List.Forall₂.nil
  | cons hab ht ih =>
    intro h2
    exact List.Forall₂.cons ⟨h2 _ (List.mem_cons_self _ _), hab⟩
      (ih (fun v hv => h2 v (List.mem_cons_of_mem _ hv)))

/-- The dot product against an incidence row splits into the incoming sum
minus the outgoing sum. -/
lemma dotQ_row_split (es : List Edge) (n : String) (x : List ℚ) :
    dotQ (es.map (fun e => (if e.dst = n then (1 : ℚ) else 0)
        + (if e.src = n then (-1 : ℚ) else 0))) x
      = dotQ (es.map (fun e => if e.dst = n then (1 : ℚ) else 0)) x
        - dotQ (es.map (fun e => if e.src = n then (1 : ℚ) else 0)) x := by
  induction es generalizing x with
  | nil => simp [dotQ]
  | cons e t ih =>
    cases x with
    | nil => simp [dotQ]
    | cons b xs =>
      simp only [List.map_cons, dotQ_cons, ih xs]
      by_cases h1 : e.dst = n <;> by_cases h2 : e.src = n <;>
        simp [h1, h2] <;> ring

/-- Total flow on the edges of a general graph entering a node. -/
def inflowG (g : Graph) (n : String) (x : List ℚ) : ℚ :=
  dotQ (g.edges.map (fun e => if e.dst = n then 1 else 0)) x

/-- Total flow on the edges of a general graph leaving a node. -/
def outflowG (g : Graph) (n : String) (x : List ℚ) : ℚ :=
  dotQ (g.edges.map (fun e => if e.src = n then 1 else 0)) x

/-- The zero vector is feasible for the LP of a single-edge graph of
non-negative capacity. -/
lemma singleEdge_zero_feasible (c : ℚ) (hc : 0 ≤ c) :
    FeasibleLP (lpOf (singleEdgeGraph c) ("s") ("t")) [0] := by
  refine ⟨rfl, ?_, ?_, ?_⟩
  · simp [lpOf, singleEdgeGraph, inBound, upperOk, List.forall₂_cons,
      List.replicate]
  · simp [lpOf, singleEdgeGraph, eye, dotQ, List.forall₂_cons,
      List.range_succ, hc]
  · simp [lpOf, singleEdgeGraph, dotQ, List.replicate]

/-- Claim C2: for every graph, every vector feasible for the constructed LP
(the contract any solver output satisfies) assigns each edge a flow within
[0, capacity], and at every node other than the source and the sink the
inflow equals the outflow; in particular the returned vector of the hardcoded
instance satisfies every capacity row of lhs_capacity against rhs_capacity
and every conservation row of lhs_balance, exactly, which subsumes the
numerical tolerance of the spec. -/
theorem flow_feasibility (g : Graph) (source sink : String) (x : List ℚ)
    (hx : FeasibleLP (lpOf g source sink) x) :
    (List.Forall₂ (fun v e => 0 ≤ v ∧ v ≤ e.capacity) x g.edges
      ∧ ∀ n ∈ g.nodes, n ≠ source → n ≠ sink → inflowG g n x = outflowG g n x)
    ∧ (List.Forall₂ (fun a b => a ≤ b)
        (lhs_capacity.map (fun r => dotQ r xstar)) rhs_capacity
      ∧ lhs_balance.map (fun r => dotQ r xstar) = rhs_balance) := by
  obtain ⟨hlen, hbnd, hub, heq⟩ := hx
  simp only [lpOf, List.length_map] at hlen
  refine ⟨⟨?_, ?_⟩, xstar_feasible.2.2.1, xstar_feasible.2.2.2⟩
  · simp only [lpOf] at hub
    rw [← hlen] at hub
    rw [eye_dot] at hub
    simp only [List.forall₂_map_right_iff] at hub
    refine forall₂_and_nonneg hub ?_
    simp only [lpOf] at hbnd
    exact nonneg_of_bounds _ x hbnd
  · intro n hn hns hnt
    simp only [lpOf] at heq
    have hnf : n ∈ g.nodes.filter (fun m => m != sink) :=
      List.mem_filter.mpr ⟨hn, by simpa using hnt⟩
    have hmem := List.mem_map_of_mem (fun r => dotQ r x)
      (List.mem_map_of_mem
        (fun m => g.edges.map (fun e => (if e.dst = m then (1 : ℚ) else 0)
          + (if e.src = m then (-1 : ℚ) else 0))) hnf)
    rw [heq] at hmem
    have h0 := List.eq_of_mem_replicate hmem
    simp only [dotQ_row_split] at h0
    show inflowG g n x = outflowG g n x
    simp only [inflowG, outflowG]
    linarith

/-- Witness for claim C2: the zero vector on a single-edge graph exercises the
general statement, and the instance part re-checks the returned vector of the
notebook. -/
theorem flow_feasibility_witness :
    FeasibleLP (lpOf (singleEdgeGraph 5) ("s") ("t")) [0]
      ∧ ((List.Forall₂ (fun v e => 0 ≤ v ∧ v ≤ e.capacity) [0]
          (singleEdgeGraph 5).edges
        ∧ ∀ n ∈ (singleEdgeGraph 5).nodes, n ≠ "s" → n ≠ "t" →
            inflowG (singleEdgeGraph 5) n [0] = outflowG (singleEdgeGraph 5) n [0])
      ∧ (List.Forall₂ (fun a b => a ≤ b)
          (lhs_capacity.map (fun r => dotQ r xstar)) rhs_capacity
        ∧ lhs_balance.map (fun r => dotQ r xstar) = rhs_balance)) :=
  ⟨singleEdge_zero_feasible 5 (by norm_num),
    flow_feasibility (singleEdgeGraph 5) ("s") ("t") [0]
      (singleEdge_zero_feasible 5 (by norm_num))⟩
